import Mathlib

/-!
Verification of the QAOA MaxCut simulator (`src/main.py` and `src/test.py`).

The quantum state over `n` wires is embedded as a complex amplitude function on
bit assignments `Fin n → Bool` (wire `w` carries `false` for `|0⟩`, `true` for
`|1⟩`).  Gate matrices are the standard PennyLane definitions:
`qml.Hadamard`, `qml.RX θ = exp(-i θ X/2)`, `qml.RZ θ = exp(-i θ Z/2)`,
`qml.CNOT`.  All arithmetic is exact (real/complex numbers in place of
floating point).
-/

open ComplexConjugate

noncomputable section

namespace QAOA

/-- A computational-basis index: one classical bit per wire. -/
abbrev Basis (n : ℕ) := Fin n → Bool

/-- A state vector: a complex amplitude for each basis index. -/
abbrev State (n : ℕ) := Basis n → ℂ

/-- The initial state `|0...0⟩` each circuit evaluation starts from. -/
def initState (n : ℕ) : State n := fun x => if x = fun _ => false then 1 else 0

/-- The Hadamard matrix `1/√2 [[1,1],[1,-1]]` (`qml.Hadamard`),
indexed by (row, column) bits. -/
def Hmat : Bool → Bool → ℂ := fun b c =>
  match b, c with
  | true, true => -((Real.sqrt 2 : ℝ) : ℂ)⁻¹
  | _, _ => ((Real.sqrt 2 : ℝ) : ℂ)⁻¹

/-- The `qml.RX θ` matrix `[[cos(θ/2), -i sin(θ/2)], [-i sin(θ/2), cos(θ/2)]]`. -/
def RXmat (θ : ℝ) : Bool → Bool → ℂ := fun b c =>
  match b, c with
  | false, false => ((Real.cos (θ / 2) : ℝ) : ℂ)
  | true, true => ((Real.cos (θ / 2) : ℝ) : ℂ)
  | _, _ => -Complex.I * ((Real.sin (θ / 2) : ℝ) : ℂ)

/-- The `qml.RZ θ` matrix `diag(exp(-iθ/2), exp(iθ/2))`. -/
def RZmat (θ : ℝ) : Bool → Bool → ℂ := fun b c =>
  match b, c with
  | false, false => Complex.exp (-(Complex.I * ((θ / 2 : ℝ) : ℂ)))
  | true, true => Complex.exp (Complex.I * ((θ / 2 : ℝ) : ℂ))
  | _, _ => 0

/-- The identity single-qubit matrix. -/
def idMat : Bool → Bool → ℂ := fun b c =>
  match b, c with
  | false, false => 1
  | true, true => 1
  | _, _ => 0

/-- Apply a single-qubit matrix `u` on wire `w`:
the new amplitude at `x` mixes the two amplitudes that differ from `x`
only at wire `w`. -/
def apply1 {n : ℕ} (u : Bool → Bool → ℂ) (w : Fin n) (s : State n) : State n :=
  fun x => u (x w) false * s (Function.update x w false)
    + u (x w) true * s (Function.update x w true)

/-- Apply `qml.CNOT` with control `c` and target `t`:
amplitude at `x` is taken from the basis state whose target bit is
`x c XOR x t`. -/
def applyCNOT {n : ℕ} (c t : Fin n) (s : State n) : State n :=
  fun x => s (Function.update x t (xor (x c) (x t)))

/-- Sum of squared amplitude magnitudes of a state. -/
def normSqSum {n : ℕ} (s : State n) : ℝ := ∑ x : Basis n, Complex.normSq (s x)

/-- The eigenvalue of `qml.PauliZ` on a classical bit: `+1` for `|0⟩`, `-1` for `|1⟩`. -/
def zsign (b : Bool) : ℝ := if b then -1 else 1

/-- Exact expectation value `⟨s| Z_i ⊗ Z_j |s⟩` of the diagonal observable
`qml.PauliZ(i) @ qml.PauliZ(j)` (spec §4.1: weighted sum over basis-state
probabilities with parity signs). -/
def expvalZZ {n : ℕ} (s : State n) (i j : Fin n) : ℝ :=
  ∑ x : Basis n, Complex.normSq (s x) * (zsign (x i) * zsign (x j))

/-! ## The circuits, translated from the source

`main.py` (lines 17-47): global `n_wires = 4`, `graph`, `U_B`, `U_C`, `circuit`.
`test.py` (lines 4-35): `qaoa_circuit` with a flat parameter vector.
-/

/-- `main.py` line 6: `n_wires = 4`. -/
abbrev n_wires : ℕ := 4

/-- `main.py` line 7: `graph = [(0, 1), (0, 3), (1, 2), (2, 3)]`. -/
def mainGraph : List (Fin n_wires × Fin n_wires) := [(0, 1), (0, 3), (1, 2), (2, 3)]

/-- `main.py` lines 17-19: `U_B(beta)` applies `qml.RX(2 * beta)` to every wire. -/
def U_B {n : ℕ} (beta : ℝ) (s : State n) : State n :=
  (List.finRange n).foldl (fun s wire => apply1 (RXmat (2 * beta)) wire s) s

/-- `main.py` lines 24-30: `U_C(gamma)` applies, for every graph edge,
`CNOT(wire1, wire2)`, `RZ(gamma)` on `wire2`, `CNOT(wire1, wire2)`. -/
def U_C {n : ℕ} (graph : List (Fin n × Fin n)) (gamma : ℝ) (s : State n) : State n :=
  graph.foldl
    (fun s edge => applyCNOT edge.1 edge.2 (apply1 (RZmat gamma) edge.2 (applyCNOT edge.1 edge.2 s)))
    s

/-- `main.py` lines 35-36: the Hadamard layer producing the `|+...+⟩` state. -/
def hadamardLayer {n : ℕ} (s : State n) : State n :=
  (List.finRange n).foldl (fun s wire => apply1 Hmat wire s) s

/-- `main.py` lines 32-40: the state prepared by `circuit(gammas, betas, ...)`
before the measurement, generalized over the graph (the source fixes
`graph` to `mainGraph`). -/
def circuitState {n : ℕ} (graph : List (Fin n × Fin n)) (gammas betas : ℕ → ℝ)
    (n_layers : ℕ) : State n :=
  (List.range n_layers).foldl
    (fun s i => U_B (betas i) (U_C graph (gammas i) s))
    (hadamardLayer (initState n))

/-! ## Norm preservation machinery -/

/-- Flip the bit of wire `w` in a basis index. -/
def flipAt {n : ℕ} (w : Fin n) : Basis n → Basis n :=
  fun x => Function.update x w (!(x w))

lemma flipAt_involutive {n : ℕ} (w : Fin n) : Function.Involutive (flipAt w) := by
  intro x
  funext i
  by_cases hi : i = w
  · subst hi
    simp [flipAt, Function.update_same]
  · simp [flipAt, Function.update_noteq hi]

lemma sum_flip {n : ℕ} (w : Fin n) (f : Basis n → ℝ) :
    ∑ x : Basis n, f (flipAt w x) = ∑ x : Basis n, f x :=
  Equiv.sum_comp ((flipAt_involutive w).toPerm _) f

/-- Splitting a sum over all basis indices into pairs that differ only at wire `w`. -/
lemma sum_pair {n : ℕ} (w : Fin n) (f : Basis n → ℝ) :
    ∑ x : Basis n, f x
      = ∑ x : Basis n, (if x w = false then f x + f (flipAt w x) else 0) := by
  have hsplit : ∀ x : Basis n,
      f x = (if x w = false then f x else 0) + (if x w = true then f x else 0) := by
    intro x
    cases h : x w <;> simp [h]
  calc ∑ x : Basis n, f x
      = ∑ x : Basis n, ((if x w = false then f x else 0) + (if x w = true then f x else 0)) :=
        Finset.sum_congr rfl (fun x _ => hsplit x)
    _ = (∑ x : Basis n, (if x w = false then f x else 0))
          + ∑ x : Basis n, (if x w = true then f x else 0) := Finset.sum_add_distrib
    _ = (∑ x : Basis n, (if x w = false then f x else 0))
          + ∑ x : Basis n, (if x w = false then f (flipAt w x) else 0) := by
        congr 1
        rw [← sum_flip w (fun x => if x w = true then f x else 0)]
        apply Finset.sum_congr rfl
        intro x _
        have hw : (flipAt w x) w = !(x w) := by simp [flipAt, Function.update_same]
        rw [hw]
        cases h : x w <;> simp [h]
    _ = ∑ x : Basis n, (if x w = false then f x + f (flipAt w x) else 0) := by
        rw [← Finset.sum_add_distrib]
        apply Finset.sum_congr rfl
        intro x _
        cases h : x w <;> simp [h]

/-- `u` is a unitary 2×2 matrix: its columns are orthonormal. -/
def unitary2 (u : Bool → Bool → ℂ) : Prop :=
  ∀ c d : Bool,
    conj (u false c) * u false d + conj (u true c) * u true d = if c = d then 1 else 0

/-- A unitary 2×2 matrix preserves the squared norm of a 2-dimensional vector. -/
lemma unitary2_preserves (u : Bool → Bool → ℂ) (hu : unitary2 u) (a b : ℂ) :
    Complex.normSq (u false false * a + u false true * b)
      + Complex.normSq (u true false * a + u true true * b)
      = Complex.normSq a + Complex.normSq b := by
  have h00 : conj (u false false) * u false false + conj (u true false) * u true false = 1 := by
    simpa using hu false false
  have h11 : conj (u false true) * u false true + conj (u true true) * u true true = 1 := by
    simpa using hu true true
  have h01 : conj (u false false) * u false true + conj (u true false) * u true true = 0 := by
    simpa using hu false true
  have h01c : u false false * conj (u false true) + u true false * conj (u true true) = 0 := by
    have h2 := congrArg (starRingEnd ℂ) h01
    simpa [map_add, map_mul] using h2
  rw [← Complex.ofReal_inj]
  push_cast
  rw [← Complex.mul_conj, ← Complex.mul_conj, ← Complex.mul_conj, ← Complex.mul_conj]
  simp only [map_add, map_mul]
  linear_combination (a * conj a) * h00 + (b * conj b) * h11
    + (a * conj b) * h01c + (b * conj a) * h01

/-- Applying a unitary single-qubit matrix preserves the squared-norm sum. -/
lemma normSqSum_apply1 {n : ℕ} (u : Bool → Bool → ℂ) (hu : unitary2 u) (w : Fin n)
    (s : State n) : normSqSum (apply1 u w s) = normSqSum s := by
  unfold normSqSum
  rw [sum_pair w (fun x => Complex.normSq (apply1 u w s x)),
    sum_pair w (fun x => Complex.normSq (s x))]
  apply Finset.sum_congr rfl
  intro x _
  by_cases hb : x w = false
  · simp only [if_pos hb]
    have hx0 : Function.update x w false = x := by
      rw [← hb]; exact Function.update_eq_self w x
    have hflip : flipAt w x = Function.update x w true := by
      unfold flipAt; rw [hb]; simp
    have hfw : (flipAt w x) w = true := by rw [hflip]; exact Function.update_same w true x
    have h1 : apply1 u w s x
        = u false false * s x + u false true * s (Function.update x w true) := by
      unfold apply1; rw [hb, hx0]
    have h2 : apply1 u w s (flipAt w x)
        = u true false * s x + u true true * s (Function.update x w true) := by
      unfold apply1
      rw [hfw, hflip, Function.update_idem, Function.update_idem, hx0]
    rw [h1, h2, hflip]
    exact unitary2_preserves u hu (s x) (s (Function.update x w true))
  · simp [hb]

/-- The CNOT reindexing map is an involution when control and target differ. -/
lemma cnotMap_involutive {n : ℕ} {c t : Fin n} (h : c ≠ t) :
    Function.Involutive (fun x : Basis n => Function.update x t (xor (x c) (x t))) := by
  intro x
  dsimp only
  have hxor : ∀ a b : Bool, xor a (xor a b) = b := by decide
  have hc : (Function.update x t (xor (x c) (x t))) c = x c :=
    Function.update_noteq h _ x
  have ht : (Function.update x t (xor (x c) (x t))) t = xor (x c) (x t) :=
    Function.update_same t _ x
  rw [hc, ht, hxor, Function.update_idem, Function.update_eq_self]

/-- Applying CNOT (with distinct control and target) preserves the squared-norm sum. -/
lemma normSqSum_applyCNOT {n : ℕ} {c t : Fin n} (h : c ≠ t) (s : State n) :
    normSqSum (applyCNOT c t s) = normSqSum s :=
  Equiv.sum_comp ((cnotMap_involutive h).toPerm _) (fun x => Complex.normSq (s x))

/-! ### The three single-qubit gates of the circuit are unitary -/

lemma sqrt_two_sq : ((Real.sqrt 2 : ℝ) : ℂ) * ((Real.sqrt 2 : ℝ) : ℂ) = 2 := by
  norm_cast
  exact Real.mul_self_sqrt (by norm_num)

lemma unitary2_H : unitary2 Hmat := by
  intro c d
  have hinv : ((Real.sqrt 2 : ℝ) : ℂ)⁻¹ * ((Real.sqrt 2 : ℝ) : ℂ)⁻¹ = 2⁻¹ := by
    rw [← mul_inv, sqrt_two_sq]
  cases c <;> cases d <;>
    simp only [Hmat, map_neg, map_inv₀, Complex.conj_ofReal, if_true, if_false,
      Bool.false_eq_true, Bool.true_eq_false, if_neg, not_false_iff] <;>
    first
      | linear_combination 2 * hinv
      | ring

lemma unitary2_RX (θ : ℝ) : unitary2 (RXmat θ) := by
  intro c d
  have hpy : ((Real.sin (θ / 2) : ℝ) : ℂ) * ((Real.sin (θ / 2) : ℝ) : ℂ)
      + ((Real.cos (θ / 2) : ℝ) : ℂ) * ((Real.cos (θ / 2) : ℝ) : ℂ) = 1 := by
    norm_cast
    nlinarith [Real.sin_sq_add_cos_sq (θ / 2)]
  cases c <;> cases d <;>
    simp only [RXmat, map_mul, map_neg, Complex.conj_ofReal, Complex.conj_I, if_true, if_false,
      Bool.false_eq_true, Bool.true_eq_false, if_neg, not_false_iff] <;>
    first
      | linear_combination hpy - ((Real.sin (θ / 2) : ℝ) : ℂ)
          * ((Real.sin (θ / 2) : ℝ) : ℂ) * Complex.I_mul_I
      | ring

lemma unitary2_RZ (θ : ℝ) : unitary2 (RZmat θ) := by
  intro c d
  have hexp : Complex.exp (Complex.I * ((θ / 2 : ℝ) : ℂ))
      * Complex.exp (-(Complex.I * ((θ / 2 : ℝ) : ℂ))) = 1 := by
    rw [← Complex.exp_add]
    simp
  have hconj1 : conj (Complex.exp (-(Complex.I * ((θ / 2 : ℝ) : ℂ))))
      = Complex.exp (Complex.I * ((θ / 2 : ℝ) : ℂ)) := by
    rw [← Complex.exp_conj]
    congr 1
    simp only [map_neg, map_mul, Complex.conj_I, Complex.conj_ofReal, neg_mul, neg_neg]
  have hconj2 : conj (Complex.exp (Complex.I * ((θ / 2 : ℝ) : ℂ)))
      = Complex.exp (-(Complex.I * ((θ / 2 : ℝ) : ℂ))) := by
    rw [← Complex.exp_conj]
    congr 1
    simp only [map_mul, Complex.conj_I, Complex.conj_ofReal, neg_mul]
  cases c <;> cases d
  · rw [if_pos rfl]
    simp only [RZmat, hconj1, map_zero, mul_zero, zero_mul, add_zero, zero_add]
    exact hexp
  · rw [if_neg (by simp)]
    simp only [RZmat, map_zero, mul_zero, zero_mul, add_zero, zero_add]
  · rw [if_neg (by simp)]
    simp only [RZmat, map_zero, mul_zero, zero_mul, add_zero, zero_add]
  · rw [if_pos rfl]
    simp only [RZmat, hconj2, map_zero, mul_zero, zero_mul, add_zero, zero_add]
    rw [mul_comm]
    exact hexp

/-! ## The gate language used by the circuits -/

/-- The gates the two circuits use: `qml.Hadamard`, `qml.RX`, `qml.RZ`, `qml.CNOT`. -/
inductive Gate (n : ℕ) where
  | H (w : Fin n)
  | RX (θ : ℝ) (w : Fin n)
  | RZ (θ : ℝ) (w : Fin n)
  | CNOT (c t : Fin n)

/-- Semantics of one gate on the state vector. -/
def applyGate {n : ℕ} : Gate n → State n → State n
  | Gate.H w => apply1 Hmat w
  | Gate.RX θ w => apply1 (RXmat θ) w
  | Gate.RZ θ w => apply1 (RZmat θ) w
  | Gate.CNOT c t => applyCNOT c t

/-- Apply a list of gates in order. -/
def applyGates {n : ℕ} (gs : List (Gate n)) (s : State n) : State n :=
  gs.foldl (fun s g => applyGate g s) s

/-- A gate is well formed when, for CNOT, control and target are distinct wires
(a two-qubit gate acts on two different wires). -/
def Gate.wf {n : ℕ} : Gate n → Prop
  | Gate.CNOT c t => c ≠ t
  | _ => True

lemma normSqSum_applyGate {n : ℕ} (g : Gate n) (hg : g.wf) (s : State n) :
    normSqSum (applyGate g s) = normSqSum s := by
  cases g with
  | H w => exact normSqSum_apply1 Hmat unitary2_H w s
  | RX θ w => exact normSqSum_apply1 (RXmat θ) (unitary2_RX θ) w s
  | RZ θ w => exact normSqSum_apply1 (RZmat θ) (unitary2_RZ θ) w s
  | CNOT c t => exact normSqSum_applyCNOT hg s

lemma normSqSum_applyGates {n : ℕ} (gs : List (Gate n)) (h : ∀ g ∈ gs, g.wf)
    (s : State n) : normSqSum (applyGates gs s) = normSqSum s := by
  induction gs generalizing s with
  | nil => rfl
  | cons g t ih =>
    have hg : g.wf := h g (List.mem_cons_self g t)
    have ht : ∀ g2 ∈ t, g2.wf := fun g2 hg2 => h g2 (List.mem_cons_of_mem g hg2)
    calc normSqSum (applyGates (g :: t) s)
        = normSqSum (applyGates t (applyGate g s)) := rfl
      _ = normSqSum (applyGate g s) := ih ht (applyGate g s)
      _ = normSqSum s := normSqSum_applyGate g hg s

lemma normSqSum_initState (n : ℕ) : normSqSum (initState n) = 1 := by
  unfold normSqSum initState
  rw [Finset.sum_eq_single (fun _ => false : Basis n)]
  · simp
  · intro x _ hx
    simp [hx]
  · intro h
    exact absurd (Finset.mem_univ _) h

/-! ## Product states and the Hadamard layer -/

/-- A product (unentangled) state: one amplitude pair per wire. -/
def prodState {n : ℕ} (f : Fin n → Bool → ℂ) : State n := fun x => ∏ i, f i (x i)

lemma initState_eq_prodState (n : ℕ) :
    initState n = prodState (fun _ b => if b then 0 else 1) := by
  funext x
  unfold initState prodState
  by_cases hx : x = fun _ => false
  · subst hx
    simp
  · rw [if_neg hx]
    have hex : ∃ i, x i = true := by
      by_contra hall
      push_neg at hall
      exact hx (funext fun i => by simpa using hall i)
    obtain ⟨i, hi⟩ := hex
    exact (Finset.prod_eq_zero (Finset.mem_univ i) (by simp [hi])).symm

lemma apply1_prodState {n : ℕ} (u : Bool → Bool → ℂ) (w : Fin n) (f : Fin n → Bool → ℂ) :
    apply1 u w (prodState f)
      = prodState (Function.update f w
          (fun b => u b false * f w false + u b true * f w true)) := by
  funext x
  unfold apply1 prodState
  have hfac : ∀ c : Bool, ∏ i, f i (Function.update x w c i)
      = f w c * ∏ i ∈ Finset.univ.erase w, f i (x i) := by
    intro c
    rw [← Finset.mul_prod_erase Finset.univ _ (Finset.mem_univ w)]
    rw [Function.update_same]
    congr 1
    apply Finset.prod_congr rfl
    intro i hi
    rw [Function.update_noteq (Finset.ne_of_mem_erase hi)]
  rw [hfac false, hfac true,
    ← Finset.mul_prod_erase Finset.univ _ (Finset.mem_univ w), Function.update_same]
  have hrest : ∏ i ∈ Finset.univ.erase w, (Function.update f w
      (fun b => u b false * f w false + u b true * f w true)) i (x i)
      = ∏ i ∈ Finset.univ.erase w, f i (x i) := by
    apply Finset.prod_congr rfl
    intro i hi
    rw [Function.update_noteq (Finset.ne_of_mem_erase hi)]
  rw [hrest]
  ring

lemma foldl_apply1_prodState {n : ℕ} (u : Bool → Bool → ℂ) (l : List (Fin n))
    (f : Fin n → Bool → ℂ) :
    l.foldl (fun s w => apply1 u w s) (prodState f)
      = prodState (l.foldl (fun f w => Function.update f w
          (fun b => u b false * f w false + u b true * f w true)) f) := by
  induction l generalizing f with
  | nil => rfl
  | cons w t ih =>
    calc (w :: t).foldl (fun s w => apply1 u w s) (prodState f)
        = t.foldl (fun s w => apply1 u w s) (apply1 u w (prodState f)) := rfl
      _ = t.foldl (fun s w => apply1 u w s) (prodState (Function.update f w
            (fun b => u b false * f w false + u b true * f w true))) := by
          rw [apply1_prodState]
      _ = _ := ih _

/-- Evaluating a fold of pointwise component updates over a duplicate-free wire list. -/
lemma foldl_update_eval {n : ℕ} (K : (Bool → ℂ) → Bool → ℂ) (l : List (Fin n))
    (hl : l.Nodup) (f : Fin n → Bool → ℂ) (v : Fin n) :
    (l.foldl (fun f w => Function.update f w (K (f w))) f) v
      = if v ∈ l then K (f v) else f v := by
  induction l generalizing f with
  | nil => simp
  | cons a t ih =>
    have hat : a ∉ t := (List.nodup_cons.mp hl).1
    have ht : t.Nodup := (List.nodup_cons.mp hl).2
    by_cases hv : v ∈ t
    · have hva : v ≠ a := fun h => hat (h ▸ hv)
      rw [List.foldl_cons, ih ht, if_pos hv, if_pos (List.mem_cons_of_mem a hv),
        Function.update_noteq hva]
    · by_cases hva : v = a
      · subst hva
        rw [List.foldl_cons, ih ht, if_neg hv, if_pos (List.mem_cons_self v t),
          Function.update_same]
      · rw [List.foldl_cons, ih ht, if_neg hv, if_neg (by
          intro h
          rcases List.mem_cons.mp h with h1 | h2
          · exact hva h1
          · exact hv h2), Function.update_noteq hva]

/-- After the Hadamard layer, `|0...0⟩` becomes the uniform superposition with
amplitude `(1/√2)^n` on every basis state. -/
lemma hadamardLayer_initState (n : ℕ) :
    hadamardLayer (initState n) = fun _ => (((Real.sqrt 2 : ℝ) : ℂ))⁻¹ ^ n := by
  unfold hadamardLayer
  rw [initState_eq_prodState, foldl_apply1_prodState]
  funext x
  unfold prodState
  have heval : ∀ (v : Fin n) (b : Bool),
      ((List.finRange n).foldl (fun (f : Fin n → Bool → ℂ) (w : Fin n) => Function.update f w
        (fun b => Hmat b false * f w false + Hmat b true * f w true))
        (fun _ b => if b then 0 else 1)) v b
      = (((Real.sqrt 2 : ℝ) : ℂ))⁻¹ := by
    intro v b
    have h := foldl_update_eval
      (fun comp b => Hmat b false * comp false + Hmat b true * comp true)
      (List.finRange n) (List.nodup_finRange n) (fun _ b => if b then 0 else 1) v
    rw [h, if_pos (List.mem_finRange v)]
    cases b <;> simp [Hmat]
  calc ∏ i, ((List.finRange n).foldl (fun (f : Fin n → Bool → ℂ) (w : Fin n) =>
        Function.update f w
        (fun b => Hmat b false * f w false + Hmat b true * f w true))
        (fun _ b => if b then 0 else 1)) i (x i)
      = ∏ _i : Fin n, (((Real.sqrt 2 : ℝ) : ℂ))⁻¹ := by
        apply Finset.prod_congr rfl
        intro i _
        rw [heval i (x i)]
    _ = (((Real.sqrt 2 : ℝ) : ℂ))⁻¹ ^ n := by
        rw [Finset.prod_const, Finset.card_univ, Fintype.card_fin]

/-! ## Zero-angle layers are the identity -/

lemma RZmat_zero : RZmat 0 = idMat := by
  funext b c
  cases b <;> cases c <;> simp [RZmat, idMat]

lemma RXmat_zero : RXmat 0 = idMat := by
  funext b c
  cases b <;> cases c <;> simp [RXmat, idMat]

lemma apply1_idMat {n : ℕ} (w : Fin n) (s : State n) : apply1 idMat w s = s := by
  funext x
  unfold apply1
  cases hb : x w
  · have hx : Function.update x w false = x := by rw [← hb]; exact Function.update_eq_self w x
    simp [idMat, hb, hx]
  · have hx : Function.update x w true = x := by rw [← hb]; exact Function.update_eq_self w x
    simp [idMat, hb, hx]

lemma applyCNOT_applyCNOT {n : ℕ} {c t : Fin n} (h : c ≠ t) (s : State n) :
    applyCNOT c t (applyCNOT c t s) = s := by
  funext x
  unfold applyCNOT
  exact congrArg s (cnotMap_involutive h x)

/-- With `gamma = 0`, the cost unitary `U_C` is the identity on states
(RZ(0) is the identity, and the two CNOTs cancel). -/
lemma U_C_zero {n : ℕ} (graph : List (Fin n × Fin n)) (hG : ∀ e ∈ graph, e.1 ≠ e.2)
    (s : State n) : U_C graph 0 s = s := by
  unfold U_C
  rw [RZmat_zero]
  induction graph generalizing s with
  | nil => rfl
  | cons e t ih =>
    have he : e.1 ≠ e.2 := hG e (List.mem_cons_self e t)
    have ht : ∀ e2 ∈ t, e2.1 ≠ e2.2 := fun e2 h2 => hG e2 (List.mem_cons_of_mem e h2)
    rw [List.foldl_cons, apply1_idMat, applyCNOT_applyCNOT he]
    exact ih ht s

/-- With `beta = 0`, the mixer unitary `U_B` is the identity on states. -/
lemma U_B_zero {n : ℕ} (s : State n) : U_B 0 s = s := by
  unfold U_B
  have h20 : (2 : ℝ) * 0 = 0 := by norm_num
  rw [h20, RXmat_zero]
  induction List.finRange n generalizing s with
  | nil => rfl
  | cons w t ih =>
    rw [List.foldl_cons, apply1_idMat]
    exact ih s

lemma mainGraph_wf : ∀ e ∈ mainGraph, e.1 ≠ e.2 := by decide

/-- At `gamma = beta = 0` with one layer, the circuit state on the 4-cycle is
the uniform superposition with amplitude `1/4`. -/
lemma circuitState_zero :
    circuitState mainGraph (fun _ => 0) (fun _ => 0) 1 = fun _ => (1 / 4 : ℂ) := by
  unfold circuitState
  rw [show List.range 1 = [0] from rfl, List.foldl_cons, List.foldl_nil,
    U_C_zero mainGraph mainGraph_wf, U_B_zero, hadamardLayer_initState]
  funext x
  have h4 : (((Real.sqrt 2 : ℝ) : ℂ)) ^ 4 = 4 := by
    have h2 := sqrt_two_sq
    calc (((Real.sqrt 2 : ℝ) : ℂ)) ^ 4
        = (((Real.sqrt 2 : ℝ) : ℂ) * ((Real.sqrt 2 : ℝ) : ℂ))
          * (((Real.sqrt 2 : ℝ) : ℂ) * ((Real.sqrt 2 : ℝ) : ℂ)) := by ring
      _ = 4 := by rw [h2]; norm_num
  show (((Real.sqrt 2 : ℝ) : ℂ))⁻¹ ^ (4 : ℕ) = 1 / 4
  rw [inv_pow, h4]
  norm_num

/-! ## Expectation values of `Z ⊗ Z` -/

lemma zsign_not (b : Bool) : zsign (!b) = -zsign b := by cases b <;> simp [zsign]

/-- On a constant-amplitude (uniform) state, every `Z_i ⊗ Z_j` expectation with
`i ≠ j` vanishes: flipping bit `i` pairs each basis state with one of opposite
parity. -/
lemma expvalZZ_const {n : ℕ} {i j : Fin n} (hij : i ≠ j) (a : ℂ) :
    expvalZZ (fun _ => a) i j = 0 := by
  unfold expvalZZ
  have hS : ∑ x : Basis n, Complex.normSq a * (zsign (x i) * zsign (x j))
      = -∑ x : Basis n, Complex.normSq a * (zsign (x i) * zsign (x j)) := by
    conv_lhs => rw [← sum_flip i (fun x => Complex.normSq a * (zsign (x i) * zsign (x j)))]
    rw [← Finset.sum_neg_distrib]
    apply Finset.sum_congr rfl
    intro x _
    have h1 : (flipAt i x) i = !(x i) := by
      unfold flipAt; exact Function.update_same i (!(x i)) x
    have h2 : (flipAt i x) j = x j := by
      unfold flipAt; exact Function.update_noteq (fun h => hij h.symm) (!(x i)) x
    rw [h1, h2, zsign_not]
    ring
  linarith [hS]

/-! ## The objective function (`main.py` lines 57-65)

`objective(params)` starts from `neg_obj = 0` and, for every graph edge,
subtracts `0.5 * (1 - circuit(gammas, betas, edge=edge, n_layers=n_layers))`.
The per-edge circuit call runs on the `shots=1` device of line 21, so the
value it returns is a single-shot estimate of the edge's expectation value;
the faithful embedding `objectiveShots` is given below, after the device
model. -/

/-- Folding `acc - 0.5 * (1 - f e)` over a list equals the closed form
`a - 0.5 * Σ (1 - f e)`. -/
lemma foldl_sub_half {α : Type} (l : List α) (f : α → ℝ) (a : ℝ) :
    l.foldl (fun acc e => acc - 0.5 * (1 - f e)) a
      = a - 0.5 * ((l.map fun e => 1 - f e).sum) := by
  induction l generalizing a with
  | nil => simp
  | cons e t ih =>
    rw [List.foldl_cons, ih, List.map_cons, List.sum_cons]
    ring

/-! ## The qnode's return value under the `shots=1` device

`main.py` line 21 creates `qml.device("lightning.qubit", wires=n_wires, shots=1)`.
On a finite-shot device every measurement statistic is estimated from the
drawn samples; with `shots=1`, `qml.sample()` returns the single drawn basis
state and `qml.expval(H)` returns the eigenvalue of `H` on that single drawn
basis state (`±1` for `Z ⊗ Z`).  The drawn sample is an input (`shot`) here;
a draw is realizable exactly when its basis state has non-zero probability
`|⟨shot|ψ⟩|²` in the circuit state `ψ`. -/

/-- Result of one qnode call of `circuit` (`main.py` lines 32-47): a sampled
basis state (`edge is None`) or an expectation-value estimate (`edge` given).
The `modeError` constructor embeds the spec's `ModeError` failure mode
(spec §4.3/§7) so that its absence can be stated; the code never produces it. -/
inductive CircuitResult where
  | sample (bits : Basis n_wires)
  | expectation (v : ℝ)
  | modeError

/-- The single-shot `Z ⊗ Z` eigenvalue for the drawn basis state. -/
def shotExpval (edge : Fin n_wires × Fin n_wires) (shot : Basis n_wires) : ℝ :=
  zsign (shot edge.1) * zsign (shot edge.2)

/-- `main.py` lines 32-47: `circuit(gammas, betas, edge, n_layers)` under the
`shots=1` device, given the drawn sample `shot`.  `edge is None` returns
`qml.sample()`; otherwise the call returns the single-shot `expval` estimate. -/
def circuitRun (gammas betas : ℕ → ℝ) (edge : Option (Fin n_wires × Fin n_wires))
    (n_layers : ℕ) (shot : Basis n_wires) : CircuitResult :=
  match edge with
  | none => CircuitResult.sample shot
  | some e => CircuitResult.expectation (shotExpval e shot)

/-- `main.py` lines 57-65 as actually executed by the `shots=1` device: the
`i`-th edge's circuit call consumes the `i`-th drawn sample.  The parameters
select the circuit state and hence the distribution the samples are drawn
from; the returned float is determined by the drawn samples. -/
def objectiveShots (gammas betas : ℕ → ℝ) (n_layers : ℕ)
    (shots : ℕ → Basis n_wires) : ℝ :=
  mainGraph.enum.foldl
    (fun neg_obj ie => neg_obj - 0.5 * (1 - shotExpval ie.2 (shots ie.1)))
    0

/-- The all-zero basis state (sample `0000`). -/
def bAllFalse : Basis n_wires := fun _ => false

/-- The basis state `1000` (wire 0 measured as `1`). -/
def bFirstTrue : Basis n_wires := fun i => decide (i = 0)

/-! ## The gate sequence of the circuits (claims C3 and C9) -/

lemma applyGates_append {n : ℕ} (l1 l2 : List (Gate n)) (s : State n) :
    applyGates (l1 ++ l2) s = applyGates l2 (applyGates l1 s) :=
  List.foldl_append _ _ l1 l2

lemma applyGates_flatMap {n : ℕ} {α : Type} (l : List α) (F : α → List (Gate n))
    (s : State n) :
    applyGates (l.flatMap F) s = l.foldl (fun s a => applyGates (F a) s) s := by
  induction l generalizing s with
  | nil => rfl
  | cons a t ih =>
    rw [List.flatMap_cons, applyGates_append, ih, List.foldl_cons]

/-- The gate sequence stated by the spec (§4.3): Hadamard on every wire, then
for each layer the per-edge `CNOT, RZ, CNOT` triples followed by `RX(2β)` on
every wire. -/
def circuitGates {n : ℕ} (graph : List (Fin n × Fin n)) (gammas betas : ℕ → ℝ)
    (p : ℕ) : List (Gate n) :=
  ((List.finRange n).map Gate.H)
    ++ (List.range p).flatMap (fun l =>
      (graph.flatMap fun e => [Gate.CNOT e.1 e.2, Gate.RZ (gammas l) e.2, Gate.CNOT e.1 e.2])
        ++ (List.finRange n).map (Gate.RX (2 * betas l)))

lemma hadamardLayer_eq_applyGates {n : ℕ} (s : State n) :
    hadamardLayer s = applyGates ((List.finRange n).map Gate.H) s := by
  unfold hadamardLayer applyGates
  rw [List.foldl_map]
  rfl

lemma U_B_eq_applyGates {n : ℕ} (beta : ℝ) (s : State n) :
    U_B beta s = applyGates ((List.finRange n).map (Gate.RX (2 * beta))) s := by
  unfold U_B applyGates
  rw [List.foldl_map]
  rfl

lemma U_C_eq_applyGates {n : ℕ} (graph : List (Fin n × Fin n)) (gamma : ℝ) (s : State n) :
    U_C graph gamma s
      = applyGates (graph.flatMap fun e =>
          [Gate.CNOT e.1 e.2, Gate.RZ gamma e.2, Gate.CNOT e.1 e.2]) s := by
  rw [applyGates_flatMap]
  rfl

/-! ## The second variant (`test.py` lines 16-35)

`qaoa_circuit(params, edges, p)` takes one flat parameter list
`[gamma1..gammap, beta1..betap]`; its cost unitary uses `qml.RZ(-2 * params[layer])`
and its mixer uses `qml.RX(2 * params[p + layer])`.  The wire indices are
abstracted to `Fin n` here; the register-size computation `num_qubits` is
modelled separately below. -/
def qaoa_circuitState {n : ℕ} (edges : List (Fin n × Fin n)) (params : ℕ → ℝ)
    (p : ℕ) : State n :=
  (List.range p).foldl
    (fun s layer =>
      (List.finRange n).foldl (fun s i => apply1 (RXmat (2 * params (p + layer))) i s)
        (edges.foldl
          (fun s e => applyCNOT e.1 e.2 (apply1 (RZmat (-2 * params layer)) e.2 (applyCNOT e.1 e.2 s)))
          s))
    ((List.finRange n).foldl (fun s i => apply1 Hmat i s) (initState n))

/-- The cost-unitary gate block of the first variant (`main.py` `U_C`):
`CNOT(i,j), RZ(gamma) on j, CNOT(i,j)` per edge. -/
def costBlockMain {n : ℕ} (edges : List (Fin n × Fin n)) (gamma : ℝ) : List (Gate n) :=
  edges.flatMap fun e => [Gate.CNOT e.1 e.2, Gate.RZ gamma e.2, Gate.CNOT e.1 e.2]

/-- The cost-unitary gate block of the second variant (`test.py` lines 25-28):
`CNOT(i,j), RZ(-2 * g') on j, CNOT(i,j)` per edge. -/
def costBlockTest {n : ℕ} (edges : List (Fin n × Fin n)) (g2 : ℝ) : List (Gate n) :=
  edges.flatMap fun e => [Gate.CNOT e.1 e.2, Gate.RZ (-2 * g2) e.2, Gate.CNOT e.1 e.2]

/-- Fold functions that agree on the list's members fold identically. -/
lemma foldl_congr_mem {α β : Type} (l : List α) (f g : β → α → β) (b : β)
    (h : ∀ a ∈ l, ∀ acc, f acc a = g acc a) : l.foldl f b = l.foldl g b := by
  induction l generalizing b with
  | nil => rfl
  | cons a t ih =>
    rw [List.foldl_cons, List.foldl_cons, h a (List.mem_cons_self a t) b]
    exact ih _ (fun a2 h2 acc => h a2 (List.mem_cons_of_mem a h2) acc)

/-! ## Folded maxima (shared by the sampler and the register-size computation) -/

lemma le_foldl_max (l : List ℕ) (a : ℕ) : a ≤ l.foldl max a := by
  induction l generalizing a with
  | nil => exact le_refl a
  | cons b t ih => exact le_trans (le_max_left a b) (ih (max a b))

lemma mem_le_foldl_max (l : List ℕ) (a x : ℕ) (hx : x ∈ l) : x ≤ l.foldl max a := by
  induction l generalizing a with
  | nil => cases hx
  | cons b t ih =>
    rcases List.mem_cons.mp hx with rfl | hxt
    · exact le_trans (le_max_right a x) (le_foldl_max t (max a x))
    · exact ih (max a b) hxt

lemma foldl_max_eq_or_mem (l : List ℕ) (a : ℕ) : l.foldl max a = a ∨ l.foldl max a ∈ l := by
  induction l generalizing a with
  | nil => exact Or.inl rfl
  | cons b t ih =>
    rcases ih (max a b) with h | h
    · rcases max_choice a b with hab | hab
      · exact Or.inl (by rw [List.foldl_cons, h, hab])
      · exact Or.inr (by rw [List.foldl_cons, h, hab]; exact List.mem_cons_self b t)
    · exact Or.inr (List.mem_cons_of_mem b h)

lemma foldl_max_zero_mem (l : List ℕ) (hl : l ≠ []) : l.foldl max 0 ∈ l := by
  rcases foldl_max_eq_or_mem l 0 with h | h
  · cases l with
    | nil => exact absurd rfl hl
    | cons b t =>
      have hb : b ≤ 0 := h ▸ mem_le_foldl_max (b :: t) 0 b (List.mem_cons_self b t)
      have hb0 : b = 0 := Nat.le_zero.mp hb
      rw [h, ← hb0]
      exact List.mem_cons_self b t
  · exact h

/-! ## The sampler/reporter (`main.py` lines 85-88)

`counts = np.bincount(bit_strings)` tabulates, for every value from `0` to the
largest sampled value, its number of occurrences; `np.argmax(counts)` returns
the index of the maximal count, taking the first (smallest) index when several
counts are maximal (NumPy's documented tie-breaking). -/

/-- `np.bincount` on a non-empty list of naturals. -/
def bincount (l : List ℕ) : List ℕ :=
  (List.range (l.foldl max 0 + 1)).map fun v => l.count v

/-- Modelled from the NumPy documentation of `np.argmax`: the index of the
first occurrence of the maximum value. -/
def argmax (c : List ℕ) : ℕ := c.indexOf (c.foldl max 0)

/-- `main.py` lines 85-86: the reported most-frequent sampled value. -/
def mostFreqBitString (samples : List ℕ) : ℕ := argmax (bincount samples)

lemma indexOf_le_of_getElem_eq {α : Type} [DecidableEq α] (l : List α) (i : ℕ)
    (hi : i < l.length) (a : α) (ha : l.get ⟨i, hi⟩ = a) : l.indexOf a ≤ i := by
  induction l generalizing i with
  | nil => cases hi
  | cons b t ih =>
    cases i with
    | zero =>
      have hb : b = a := ha
      rw [List.indexOf_cons_eq t hb]
    | succ j =>
      by_cases hba : b = a
      · rw [List.indexOf_cons_eq t hba]
        exact Nat.zero_le _
      · rw [List.indexOf_cons_ne t hba]
        exact Nat.succ_le_succ (ih j (Nat.lt_of_succ_lt_succ hi) ha)

lemma bincount_length (l : List ℕ) : (bincount l).length = l.foldl max 0 + 1 := by
  unfold bincount
  rw [List.length_map, List.length_range]

lemma bincount_get (l : List ℕ) (v : ℕ) (hv : v < (bincount l).length) :
    (bincount l).get ⟨v, hv⟩ = l.count v := by
  unfold bincount at hv ⊢
  rw [List.get_map, List.get_range]

lemma mostFreq_lt_bincount_length (l : List ℕ) :
    mostFreqBitString l < (bincount l).length := by
  unfold mostFreqBitString argmax
  apply List.indexOf_lt_length.mpr
  apply foldl_max_zero_mem
  intro h0
  have := bincount_length l
  rw [h0] at this
  simp at this

lemma count_mostFreq (l : List ℕ) :
    l.count (mostFreqBitString l) = (bincount l).foldl max 0 := by
  have hlt := mostFreq_lt_bincount_length l
  have hget := List.indexOf_get (a := (bincount l).foldl max 0) (l := bincount l) hlt
  have hmax : mostFreqBitString l ≤ l.foldl max 0 := by
    have := bincount_length l
    omega
  rw [← bincount_get l (mostFreqBitString l) hlt]
  exact hget

lemma count_le_count_mostFreq (l : List ℕ) (v : ℕ) :
    l.count v ≤ l.count (mostFreqBitString l) := by
  rw [count_mostFreq]
  by_cases hv : v ≤ l.foldl max 0
  · have hvlt : v < (bincount l).length := by rw [bincount_length]; omega
    have : (bincount l).get ⟨v, hvlt⟩ = l.count v := bincount_get l v hvlt
    rw [← this]
    exact mem_le_foldl_max (bincount l) 0 _ (List.get_mem (bincount l) v hvlt)
  · have hvl : v ∉ l := by
      intro hmem
      exact hv (mem_le_foldl_max l 0 v hmem)
    rw [List.count_eq_zero.mpr hvl]
    exact Nat.zero_le _

lemma mostFreq_min_of_tie (l : List ℕ) (v : ℕ)
    (hc : l.count v = l.count (mostFreqBitString l)) : mostFreqBitString l ≤ v := by
  by_cases hvm : mostFreqBitString l ≤ v
  · exact hvm
  · push_neg at hvm
    have hvlt : v < (bincount l).length :=
      lt_trans hvm (mostFreq_lt_bincount_length l)
    have hval : (bincount l).get ⟨v, hvlt⟩ = (bincount l).foldl max 0 := by
      rw [bincount_get l v hvlt, hc, count_mostFreq]
    have hle : (bincount l).indexOf ((bincount l).foldl max 0) ≤ v :=
      indexOf_le_of_getElem_eq (bincount l) v hvlt _ hval
    exact hle

/-! ## The register size of the second variant (`test.py` lines 16 and 66) -/

/-- `test.py` line 16 (in `qaoa_circuit`):
`num_qubits = max(max(edge) for edge in edges) + 1`. -/
def qaoaCircuitNumQubits (edges : List (ℕ × ℕ)) : ℕ :=
  (edges.map fun e => max e.1 e.2).foldl max 0 + 1

/-- `test.py` line 66 (in `optimize_qaoa`), the identical expression:
`num_qubits = max(max(edge) for edge in edges) + 1`. -/
def optimizeNumQubits (edges : List (ℕ × ℕ)) : ℕ :=
  (edges.map fun e => max e.1 e.2).foldl max 0 + 1

/-- All vertex indices appearing in the edge list. -/
def vertexList (edges : List (ℕ × ℕ)) : List ℕ := edges.flatMap fun e => [e.1, e.2]

/-- The largest vertex index appearing in the edge list. -/
def maxVertex (edges : List (ℕ × ℕ)) : ℕ := (vertexList edges).foldl max 0

lemma foldl_max_pairs (edges : List (ℕ × ℕ)) (a : ℕ) :
    (edges.map fun e => max e.1 e.2).foldl max a = (vertexList edges).foldl max a := by
  unfold vertexList
  induction edges generalizing a with
  | nil => rfl
  | cons e t ih =>
    rw [List.map_cons, List.foldl_cons, List.flatMap_cons]
    show (t.map fun e => max e.1 e.2).foldl max (max a (max e.1 e.2))
      = ([e.1, e.2] ++ t.flatMap fun e => [e.1, e.2]).foldl max a
    rw [List.foldl_append, ih]
    congr 1
    show max a (max e.1 e.2) = max (max a e.1) e.2
    rw [max_assoc]

/-! ## Claim theorems -/

/-- C1 counterexample: the objective does not return
`-0.5 * Σ_edges (1 - expectation(params, edge))` with the exact `Z_i ⊗ Z_j`
expectation values.  At `gamma = beta = 0` that formula's value is `-2`
(every exact expectation is 0), but the objective as executed by the
`shots=1` device returns `0` for a realizable draw (the all-zero sample,
probability `1/16 ≠ 0` in the circuit state, for every edge's call). -/
theorem objective_formula_counterexample :
    objectiveShots (fun _ => 0) (fun _ => 0) 1 (fun _ => bAllFalse)
      ≠ -0.5 * ((mainGraph.map fun e =>
          1 - expvalZZ (circuitState mainGraph (fun _ => 0) (fun _ => 0) 1) e.1 e.2).sum)
    ∧ Complex.normSq (circuitState mainGraph (fun _ => 0) (fun _ => 0) 1 bAllFalse) ≠ 0 := by
  constructor
  · have h1 : objectiveShots (fun _ => 0) (fun _ => 0) 1 (fun _ => bAllFalse) = 0 := by
      norm_num [objectiveShots, mainGraph, shotExpval, zsign, bAllFalse,
        List.enum, List.enumFrom, List.foldl]
    have h01 : expvalZZ (fun _ => (1 / 4 : ℂ)) (0 : Fin 4) (1 : Fin 4) = 0 :=
      expvalZZ_const (by decide) _
    have h03 : expvalZZ (fun _ => (1 / 4 : ℂ)) (0 : Fin 4) (3 : Fin 4) = 0 :=
      expvalZZ_const (by decide) _
    have h12 : expvalZZ (fun _ => (1 / 4 : ℂ)) (1 : Fin 4) (2 : Fin 4) = 0 :=
      expvalZZ_const (by decide) _
    have h23 : expvalZZ (fun _ => (1 / 4 : ℂ)) (2 : Fin 4) (3 : Fin 4) = 0 :=
      expvalZZ_const (by decide) _
    rw [h1, circuitState_zero]
    norm_num [mainGraph, h01, h03, h12, h23]
  · rw [circuitState_zero]
    simp [Complex.normSq_eq_zero]

/-- C1 amended: the objective returns
`-0.5 * Σ_edges (1 - z_e)`, where `z_e` is the value the circuit call returns
for that edge — under the `shots=1` device a single-shot `±1` estimate of the
edge's expectation value — and the probability-weighted mean of that estimate
over the circuit state's measurement distribution equals the exact
`Z_i ⊗ Z_j` expectation value of the claim. -/
theorem objective_shots_formula (gammas betas : ℕ → ℝ) (n_layers : ℕ)
    (shots : ℕ → Basis n_wires) (e : Fin n_wires × Fin n_wires) :
    objectiveShots gammas betas n_layers shots
      = -0.5 * ((mainGraph.enum.map fun ie => 1 - shotExpval ie.2 (shots ie.1)).sum)
    ∧ ∑ x : Basis n_wires,
        Complex.normSq (circuitState mainGraph gammas betas n_layers x) * shotExpval e x
      = expvalZZ (circuitState mainGraph gammas betas n_layers) e.1 e.2 := by
  constructor
  · unfold objectiveShots
    rw [foldl_sub_half]
    ring
  · rfl

/-- C3: the circuit applies exactly this gate sequence to `|0...0⟩`: Hadamard
on every wire, then for each layer `l` the per-edge triples
`CNOT(i,j), RZ(gammas l) on j, CNOT(i,j)` followed by `RX(2 * betas l)` on
every wire. -/
theorem circuit_gate_sequence {n : ℕ} (graph : List (Fin n × Fin n))
    (gammas betas : ℕ → ℝ) (p : ℕ) :
    circuitState graph gammas betas p
      = applyGates (circuitGates graph gammas betas p) (initState n) := by
  unfold circuitState circuitGates
  rw [applyGates_append, applyGates_flatMap, ← hadamardLayer_eq_applyGates]
  have hfun : (fun (s : State n) (l : ℕ) => U_B (betas l) (U_C graph (gammas l) s))
      = fun (s : State n) (l : ℕ) => applyGates
          ((graph.flatMap fun e =>
            [Gate.CNOT e.1 e.2, Gate.RZ (gammas l) e.2, Gate.CNOT e.1 e.2])
            ++ (List.finRange n).map (Gate.RX (2 * betas l))) s := by
    funext s l
    rw [applyGates_append, ← U_C_eq_applyGates, ← U_B_eq_applyGates]
  rw [hfun]

/-- C4: the reported most-frequent sampled value has maximal occurrence count,
and among values of maximal count it is the smallest (deterministic tie-break,
NumPy's first-occurrence `argmax`). -/
theorem mostFreq_is_mode (l : List ℕ) (hl : l ≠ []) :
    (∀ v, l.count v ≤ l.count (mostFreqBitString l))
    ∧ (∀ v, l.count v = l.count (mostFreqBitString l) → mostFreqBitString l ≤ v) :=
  ⟨fun v => count_le_count_mostFreq l v, fun v hv => mostFreq_min_of_tie l v hv⟩

theorem mostFreq_is_mode_witness :
    ([3, 1, 3, 1, 2] : List ℕ) ≠ []
    ∧ ((∀ v, ([3, 1, 3, 1, 2] : List ℕ).count v
          ≤ ([3, 1, 3, 1, 2] : List ℕ).count (mostFreqBitString [3, 1, 3, 1, 2]))
      ∧ (∀ v, ([3, 1, 3, 1, 2] : List ℕ).count v
          = ([3, 1, 3, 1, 2] : List ℕ).count (mostFreqBitString [3, 1, 3, 1, 2])
          → mostFreqBitString [3, 1, 3, 1, 2] ≤ v)) :=
  ⟨by decide, mostFreq_is_mode [3, 1, 3, 1, 2] (by decide)⟩

/-- C5: every state reachable from `|0...0⟩` by Hadamard/RX/RZ/CNOT gates has
squared-amplitude sum exactly 1 (hence within any tolerance); every prefix of
the gate list is itself such a reachable state, so the invariant holds between
gate applications. -/
theorem reachable_state_normalized {n : ℕ} (gs : List (Gate n))
    (h : ∀ g ∈ gs, g.wf) : normSqSum (applyGates gs (initState n)) = 1 := by
  rw [normSqSum_applyGates gs h, normSqSum_initState]

theorem reachable_state_normalized_witness :
    (∀ g ∈ ([Gate.H 0, Gate.RX 1 1, Gate.CNOT 0 1, Gate.RZ (1 / 2) 0] : List (Gate 2)), g.wf)
    ∧ normSqSum (applyGates
        ([Gate.H 0, Gate.RX 1 1, Gate.CNOT 0 1, Gate.RZ (1 / 2) 0] : List (Gate 2))
        (initState 2)) = 1 :=
  ⟨by intro g hg; fin_cases hg <;> simp [Gate.wf],
    reachable_state_normalized _ (by intro g hg; fin_cases hg <;> simp [Gate.wf])⟩

/-- C6: with `p = 1`, the 4-cycle graph and `gamma = beta = 0`, the circuit
state is the equal superposition (amplitude `1/4` on each of the 16 basis
states) and the `Z ⊗ Z` expectation value of every edge is exactly 0. -/
theorem zero_params_state_and_expvals :
    circuitState mainGraph (fun _ => 0) (fun _ => 0) 1 = (fun _ => (1 / 4 : ℂ))
    ∧ expvalZZ (circuitState mainGraph (fun _ => 0) (fun _ => 0) 1) 0 1 = 0
    ∧ expvalZZ (circuitState mainGraph (fun _ => 0) (fun _ => 0) 1) 0 3 = 0
    ∧ expvalZZ (circuitState mainGraph (fun _ => 0) (fun _ => 0) 1) 1 2 = 0
    ∧ expvalZZ (circuitState mainGraph (fun _ => 0) (fun _ => 0) 1) 2 3 = 0 := by
  refine ⟨circuitState_zero, ?_, ?_, ?_, ?_⟩ <;>
    rw [circuitState_zero] <;>
    exact expvalZZ_const (by decide) _

/-- C9: the two circuit variants differ only by the reparameterization of the
cost angle: the first variant's cost block at `g` equals the second variant's
cost block at `g' = -g/2`, and under that substitution of the gamma values
(betas unchanged) the two circuits produce identical states. -/
theorem variant_reparameterization {n : ℕ} (edges : List (Fin n × Fin n)) (g : ℝ)
    (gammas betas : ℕ → ℝ) (p : ℕ) :
    costBlockMain edges g = costBlockTest edges (-g / 2)
    ∧ circuitState edges gammas betas p
      = qaoa_circuitState edges (fun k => if k < p then -(gammas k) / 2 else betas (k - p)) p := by
  constructor
  · unfold costBlockMain costBlockTest
    have hfun : (fun (e : Fin n × Fin n) =>
        [Gate.CNOT e.1 e.2, Gate.RZ (-2 * (-g / 2)) e.2, Gate.CNOT e.1 e.2])
        = fun (e : Fin n × Fin n) =>
        [Gate.CNOT e.1 e.2, Gate.RZ g e.2, Gate.CNOT e.1 e.2] := by
      funext e
      have hg : (-2 : ℝ) * (-g / 2) = g := by ring
      rw [hg]
    rw [hfun]
  · unfold circuitState qaoa_circuitState
    apply foldl_congr_mem
    intro l hl acc
    have hlp : l < p := List.mem_range.mp hl
    dsimp only
    have hm : (if p + l < p then -(gammas (p + l)) / 2 else betas (p + l - p)) = betas l := by
      rw [if_neg (by omega)]
      congr 1
      omega
    have hc : (-2 : ℝ) * (if l < p then -(gammas l) / 2 else betas (l - p)) = gammas l := by
      rw [if_pos hlp]
      ring
    rw [hm, hc]
    rfl

/-- C10: for a non-empty edge list, the second variant's register size is one
plus the largest vertex index appearing in the edge list, and the circuit and
the optimizer's device compute the identical register size. -/
theorem numQubits_spec (edges : List (ℕ × ℕ)) (h : edges ≠ []) :
    qaoaCircuitNumQubits edges = maxVertex edges + 1
    ∧ maxVertex edges ∈ vertexList edges
    ∧ (∀ v ∈ vertexList edges, v ≤ maxVertex edges)
    ∧ optimizeNumQubits edges = qaoaCircuitNumQubits edges := by
  refine ⟨?_, ?_, ?_, rfl⟩
  · unfold qaoaCircuitNumQubits maxVertex
    rw [foldl_max_pairs]
  · apply foldl_max_zero_mem
    unfold vertexList
    cases edges with
    | nil => exact absurd rfl h
    | cons e t => simp
  · intro v hv
    exact mem_le_foldl_max _ 0 v hv

theorem numQubits_spec_witness :
    ([(0, 1), (1, 2)] : List (ℕ × ℕ)) ≠ []
    ∧ (qaoaCircuitNumQubits [(0, 1), (1, 2)] = maxVertex [(0, 1), (1, 2)] + 1
      ∧ maxVertex [(0, 1), (1, 2)] ∈ vertexList [(0, 1), (1, 2)]
      ∧ (∀ v ∈ vertexList [(0, 1), (1, 2)], v ≤ maxVertex [(0, 1), (1, 2)])
      ∧ optimizeNumQubits [(0, 1), (1, 2)] = qaoaCircuitNumQubits [(0, 1), (1, 2)]) :=
  ⟨by decide, numQubits_spec [(0, 1), (1, 2)] (by decide)⟩

/-- C2 counterexample: calling the circuit with `edge = None` — the claim's
own gloss of "expectation mode requested but no edge supplied" — does not
fail with `ModeError`; it returns a measurement sample. -/
theorem circuit_edge_none_returns_sample :
    circuitRun (fun _ => 0) (fun _ => 0) none 1 bAllFalse = CircuitResult.sample bAllFalse
    ∧ circuitRun (fun _ => 0) (fun _ => 0) none 1 bAllFalse ≠ CircuitResult.modeError :=
  ⟨rfl, fun h => CircuitResult.noConfusion h⟩

/-- C2 amended: the circuit never raises `ModeError` in any case.  The code
has no mode argument: the mode is determined by `edge` alone — `edge = None`
runs sample mode and returns the drawn sample, a supplied edge returns the
expectation-value estimate — so "expectation mode without an edge" cannot be
requested at all. -/
theorem circuit_mode_behavior (gammas betas : ℕ → ℝ) (n_layers : ℕ)
    (shot : Basis n_wires) (edge : Option (Fin n_wires × Fin n_wires))
    (e : Fin n_wires × Fin n_wires) :
    circuitRun gammas betas none n_layers shot = CircuitResult.sample shot
    ∧ circuitRun gammas betas (some e) n_layers shot
        = CircuitResult.expectation (shotExpval e shot)
    ∧ circuitRun gammas betas edge n_layers shot ≠ CircuitResult.modeError := by
  refine ⟨rfl, rfl, ?_⟩
  cases edge <;> exact fun h => CircuitResult.noConfusion h

/-- C7 counterexample: the objective evaluated twice at the identical
parameter vector (`gamma = beta = 0`) with different — but both realizable,
i.e. of non-zero probability in the circuit state — single-shot draws returns
different costs (`0` versus `-2`), because the `shots=1` device estimates
each edge's `expval` from one sample. -/
theorem objective_shots_counterexample :
    objectiveShots (fun _ => 0) (fun _ => 0) 1 (fun _ => bAllFalse)
      ≠ objectiveShots (fun _ => 0) (fun _ => 0) 1 (fun _ => bFirstTrue)
    ∧ Complex.normSq (circuitState mainGraph (fun _ => 0) (fun _ => 0) 1 bAllFalse) ≠ 0
    ∧ Complex.normSq (circuitState mainGraph (fun _ => 0) (fun _ => 0) 1 bFirstTrue) ≠ 0 := by
  refine ⟨?_, ?_, ?_⟩
  · have h1 : objectiveShots (fun _ => 0) (fun _ => 0) 1 (fun _ => bAllFalse) = 0 := by
      norm_num [objectiveShots, mainGraph, shotExpval, zsign, bAllFalse,
        List.enum, List.enumFrom, List.foldl]
    have hb0 : bFirstTrue 0 = true := rfl
    have hb1 : bFirstTrue 1 = false := rfl
    have hb2 : bFirstTrue 2 = false := rfl
    have hb3 : bFirstTrue 3 = false := rfl
    have h2 : objectiveShots (fun _ => 0) (fun _ => 0) 1 (fun _ => bFirstTrue) = -2 := by
      norm_num [objectiveShots, mainGraph, shotExpval, zsign, hb0, hb1, hb2, hb3,
        List.enum, List.enumFrom, List.foldl]
    rw [h1, h2]
    norm_num
  · rw [circuitState_zero]
    simp [Complex.normSq_eq_zero]
  · rw [circuitState_zero]
    simp [Complex.normSq_eq_zero]

/-- C7 amended: the objective is a pure function of the parameter vector and
the per-edge single-shot measurement outcomes: it equals the closed form
`-0.5 * Σ_edges (1 - z_e)` where `z_e` is the `Z ⊗ Z` eigenvalue of the
sample drawn for that edge's circuit call.  Re-evaluation with the same
parameters and the same drawn outcomes returns the identical cost; with
different draws it generally does not. -/
theorem objectiveShots_closed_form (gammas betas : ℕ → ℝ) (n_layers : ℕ)
    (shots : ℕ → Basis n_wires) :
    objectiveShots gammas betas n_layers shots
      = -0.5 * ((mainGraph.enum.map fun ie => 1 - shotExpval ie.2 (shots ie.1)).sum) := by
  unfold objectiveShots
  rw [foldl_sub_half]
  ring

end QAOA

end
